import Mathlib

/- Verification development for the archi-comatrix scripts.

The sections below give a shallow embedding, in Lean, of the core logic of
the repository: the recursive ancestor resolution of `src/main/model.js`
(`findAllGroupings`, `findDomain`, `findFachbereich`), the matrix
construction and merging of `src/main/comatrix.js` (`buildComatrix`,
`merge`, `sortElementsByDomain`), the diff classification and the
intern/extern derivation of `output2Excel` in
`src/main/comatrix-bundled.js`, and the application-catalog sorting of
`src/main/applist.js` (`runAppList`).

Modelling conventions:
* JavaScript `Map`s are modelled as association lists (`List (key × value)`)
  so that insertion order, which the scripts rely on, is preserved; `Set`s
  of strings are modelled as duplicate-free lists in insertion order
  (`addSet` below mirrors `Set.prototype.add`).
* `String.prototype.localeCompare` is modelled as code-point comparison via
  the linear order on `String` (`strCmp` below); the scripts only use it as
  an arbitrary total tie-break.
* The recursion of `findAllGroupings` mutates two shared `Set`s: `visited`
  (never removed from, so it is threaded through the recursion as state)
  and `currentPath` (always removed from on return, so it behaves as a
  purely functional parameter).  The recursion itself is indexed by
  explicit fuel, and a separate theorem shows the fuel is never exhausted
  once it exceeds the number of distinct node ids, which is the
  termination statement for the JavaScript recursion. -/

/-- An Archi element as seen by `model.js`: an id (unique per graph
snapshot), a display name and a specialization tag (empty string when the
element carries no specialization). -/
structure GNode where
  id : String
  name : String
  specialization : String
deriving DecidableEq, Repr

/-- One incoming aggregation/composition relationship as traversed by
`findAllGroupings`: `source` is the parent element object carried by the
relationship, `targetId` the id of the child element.  The edge list of a
`CGraph` is the concatenation, in jArchi iteration order, of the
aggregation and composition relationships. -/
structure GEdge where
  source : GNode
  targetId : String
deriving DecidableEq, Repr

/-- The containment part of a model snapshot. -/
structure CGraph where
  edges : List GEdge
deriving Repr

/-- The parent elements of the element with id `a`:
`$(element).inRels("aggregation-relationship").add($(element).inRels("composition-relationship"))`
mapped to `rel.source`, in relationship-list order. -/
def parentsOfId (g : CGraph) (a : String) : List GNode :=
  (g.edges.filter (fun r => r.targetId = a)).map (fun r => r.source)

/-- The parents of an element, see `parentsOfId`. -/
def parents (g : CGraph) (e : GNode) : List GNode :=
  parentsOfId g e.id

/-- The ids of all elements that occur as a parent of some element. -/
def sourceIds (g : CGraph) : Finset String :=
  (g.edges.map (fun r => r.source.id)).toFinset

/-- One upward containment step on ids: `b` is the id of a parent of the
element with id `a`. -/
def UpStep (g : CGraph) (a b : String) : Prop :=
  ∃ r ∈ g.edges, r.targetId = a ∧ r.source.id = b

instance (g : CGraph) (a b : String) : Decidable (UpStep g a b) := by
  unfold UpStep; infer_instance

/-- One upward containment step on element objects: `p` is a parent of `e`. -/
def UpStepN (g : CGraph) (e p : GNode) : Prop :=
  p ∈ parents g e

instance (g : CGraph) (e p : GNode) : Decidable (UpStepN g e p) := by
  unfold UpStepN; infer_instance

/-- A containment cycle is reachable upward from the id `a`. -/
def SeesCycle (g : CGraph) (a : String) : Prop :=
  ∃ c, Relation.ReflTransGen (UpStep g) a c ∧ Relation.TransGen (UpStep g) c c

/-- All element objects a resolution starting at `e` can ever touch: the
start element and every relationship source. -/
def nodePool (g : CGraph) (e : GNode) : List GNode :=
  e :: g.edges.map (fun r => r.source)

/-- The spec's data-model invariant "id is unique within one graph
snapshot", restricted to the elements `nodePool` can reach: two element
objects with the same id are the same element. -/
def ConsistentIds (g : CGraph) (e : GNode) : Prop :=
  ∀ y ∈ nodePool g e, ∀ z ∈ nodePool g e, y.id = z.id → y = z

instance (g : CGraph) (e : GNode) : Decidable (ConsistentIds g e) := by
  unfold ConsistentIds; infer_instance

/-- Result of one `findAllGroupings` call: the `found` name list, the
`hasCycle` flag, and the state of the shared `visited` set on return. -/
structure GroupRes where
  found : List String
  hasCycle : Bool
  visited : Finset String
deriving DecidableEq

/-- `parentResult.found.forEach(name => { if (!result.found.includes(name))
result.found.push(name) })` of `model.js`. -/
def mergeNames (acc : List String) (f : List String) : List String :=
  f.foldl (fun a n => if n ∈ a then a else a ++ [n]) acc

/-- The parent loop of `findAllGroupings` (`model.js` lines 38-65): walk
the parent list, skipping parents that are visited but not on the current
path, recursing (`rec`) into the others, or-ing the cycle flags and merging
the found names; `visited` is threaded, `cp` is the current path as seen by
the recursive calls. -/
def fagStep (rec : GNode → Finset String → Option GroupRes)
    (cp : Finset String) :
    List GNode → List String → Bool → Finset String → Option GroupRes
  | [], found, cyc, v => some ⟨found, cyc, v⟩
  | p :: ps, found, cyc, v =>
    if p.id ∈ v ∧ p.id ∉ cp then fagStep rec cp ps found cyc v
    else
      match rec p v with
      | none => none
      | some r => fagStep rec cp ps (mergeNames found r.found) (cyc || r.hasCycle) r.visited

/-- `findAllGroupings(element, targetSpecialization, visited, currentPath)`
of `model.js`, with explicit fuel bounding the recursion depth: report a
cycle when the element is on the current path; record the element's own
name when its specialization matches; mark the element visited and put it
on the path; walk the parents with `fagStep`.  The `currentPath.delete` on
return is implicit: `cp` is passed by value. -/
def fag (g : CGraph) (spec : String) :
    Nat → GNode → Finset String → Finset String → Option GroupRes
  | 0, _, _, _ => none
  | n + 1, e, v, cp =>
    if e.id ∈ cp then some ⟨[], true, v⟩
    else
      fagStep (fun p vi => fag g spec n p vi (insert e.id cp)) (insert e.id cp)
        (parents g e)
        (if e.specialization = spec then [e.name] else [])
        false
        (insert e.id v)

/-- Fuel that always suffices (proved in `fag_fuel_sufficient`): one more
than the number of ids that can ever enter the current path. -/
def fuelBound (g : CGraph) (e : GNode) : Nat :=
  (insert e.id (sourceIds g)).card + 1

/-- The top-level call `findAllGroupings(element, spec, new Set(), new
Set())`, returning the found names and the cycle flag.  The `getD` default
is dead code: `fag_fuel_sufficient` shows the fuel `fuelBound` is never
exhausted. -/
def findAllGroupingsTop (g : CGraph) (e : GNode) (spec : String) : GroupRes :=
  (fag g spec (fuelBound g e) e ∅ ∅).getD ⟨[], false, ∅⟩

/-- `findDomain(element)` of `model.js`: resolve the "Domäne" ancestors;
render "cycle" when a cycle was found, the empty string when no name was
found, otherwise the names joined with ", ". -/
def findDomain (g : CGraph) (e : GNode) : String :=
  let r := findAllGroupingsTop g e "Domäne"
  if r.hasCycle then "cycle"
  else if r.found = [] then ""
  else String.intercalate ", " r.found

/-- `findFachbereich(element)` of `model.js`: same as `findDomain` for the
"Fachbereich" specialization. -/
def findFachbereich (g : CGraph) (e : GNode) : String :=
  let r := findAllGroupingsTop g e "Fachbereich"
  if r.hasCycle then "cycle"
  else if r.found = [] then ""
  else String.intercalate ", " r.found

/-- The visited set `V` is closed under taking parents, away from the
current path `cp`: every fully processed element had all its parents
explored. -/
def ParentClosed (g : CGraph) (V cp : Finset String) : Prop :=
  ∀ a ∈ V, a ∉ cp → ∀ p ∈ parentsOfId g a, p.id ∈ V

/-- Association-list lookup modelling `Map.prototype.get` (first, and in a
key-unique map only, binding wins). -/
def alookup {β : Type} (k : String) : List (String × β) → Option β
  | [] => none
  | (k', v) :: l => if k' = k then some v else alookup k l

/-- Replace the value bound to `k` (models updating an existing `Map`
entry in place, order preserved). -/
def aupdate {β : Type} (k : String) (v : β) (l : List (String × β)) :
    List (String × β) :=
  l.map (fun kv => if kv.1 = k then (k, v) else kv)

/-- The keys of an association list are pairwise distinct, as they always
are for a list that models a JavaScript `Map`. -/
def keysNodup {β : Type} (l : List (String × β)) : Prop :=
  (l.map Prod.fst).Nodup

instance {β : Type} (l : List (String × β)) : Decidable (keysNodup l) := by
  unfold keysNodup; infer_instance

/-- `Set.prototype.add` on a set modelled as a duplicate-free list in
insertion order. -/
def addSet (l : List String) (b : String) : List String :=
  if b ∈ l then l else l ++ [b]

/-- One row source produced by `extractElements` of `model.js`: the
relationship name, the endpoint names, one `Schnittstelle` value, and the
resolved domains of the endpoints. -/
structure RelEntry where
  name : String
  sourceName : String
  targetName : String
  schnittstelle : String
  sourceDomain : String
  targetDomain : String
deriving DecidableEq, Repr

/-- A triggering relationship of the model: its name, its endpoint
elements, and the (possibly empty, possibly repeated) list of values of
the multi-valued "Schnittstelle" property, as returned by
`relationship.prop("Schnittstelle", true)`. -/
structure TriggerRel where
  name : String
  source : GNode
  target : GNode
  schnittstellen : List String
deriving DecidableEq, Repr

/-- `name.startsWith("NST_")`, modelled as a character-list prefix test so
that it evaluates inside the kernel. -/
def startsWithNST (s : String) : Bool :=
  "NST_".data.isPrefixOf s.data

/-- `extractElements(model)` of `model.js`: for every triggering
relationship whose name starts with "NST_", resolve the endpoint domains
once and push one entry per `Schnittstelle` value; a relationship with an
empty value list contributes no entry. -/
def extractElements (g : CGraph) (rels : List TriggerRel) : List RelEntry :=
  rels.foldl
    (fun acc r =>
      if startsWithNST r.name then
        acc ++ r.schnittstellen.map (fun s =>
          ⟨r.name, r.source.name, r.target.name, s,
           findDomain g r.source, findDomain g r.target⟩)
      else acc)
    []

/-- Per-A-element data of the matrix: the domain recorded when the element
was first seen, and the `Map` from `Schnittstelle` to the `Set` of
connected B-element names. -/
structure AData where
  domain : String
  sm : List (String × List String)
deriving DecidableEq, Repr

/-- The connectivity-table structure returned by `buildComatrix` and
`merge` of `comatrix.js` (B-element map values, objects `{domain}` in
`comatrix.js` and plain strings in `comatrix-bundled.js`, are modelled as
the domain string). -/
structure Comatrix where
  aElements : List (String × AData)
  bElementsMap : List (String × String)
  sortedAElements : List String
  sortedBElements : List String
  relationships : List RelEntry
deriving DecidableEq, Repr

/-- Three-way comparison of characters by code point. -/
def charCmp (a b : Char) : Ordering :=
  if a < b then .lt else if b < a then .gt else .eq

/-- Three-way lexicographic comparison of character lists. -/
def strCmpL : List Char → List Char → Ordering
  | [], [] => .eq
  | [], _ :: _ => .lt
  | _ :: _, [] => .gt
  | a :: as, b :: bs => (charCmp a b).then (strCmpL as bs)

/-- `localeCompare`, modelled as comparison in the code-point order on
`String` (see the module comment); computed on the character lists so that
it evaluates inside the kernel. -/
def strCmp (a b : String) : Ordering :=
  strCmpL a.data b.data

/-- The comparator of `sortElementsByDomain` (`comatrix.js` lines 16-33):
empty domains last, then by domain, then by element name. -/
def domCmp (domOf : String → String) (n1 n2 : String) : Ordering :=
  if domOf n1 = "" ∧ domOf n2 ≠ "" then .gt
  else if domOf n1 ≠ "" ∧ domOf n2 = "" then .lt
  else if domOf n1 ≠ domOf n2 then strCmp (domOf n1) (domOf n2)
  else strCmp n1 n2

/-- `sortElementsByDomain(elementsMap)`: the keys sorted by `domCmp`
(`Array.prototype.sort` modelled as a deterministic stable insertion
sort). -/
def sortElementsByDomain (domOf : String → String) (keys : List String) :
    List String :=
  List.insertionSort (fun n1 n2 => domCmp domOf n1 n2 ≠ .gt) keys

/-- The domain of an A-element of a table, as the sort comparator reads it. -/
def aDomOf (m : List (String × AData)) (k : String) : String :=
  match alookup k m with
  | some ad => ad.domain
  | none => ""

/-- The domain of a B-element of a table. -/
def bDomOf (m : List (String × String)) (k : String) : String :=
  match alookup k m with
  | some d => d
  | none => ""

/-- The per-relationship body of the `relationships.forEach` of
`buildComatrix` (`comatrix.js` lines 52-77): upsert the
(A-element, Schnittstelle) entry with the B-element name, substituting
"N/A" for a falsy (empty) `Schnittstelle` value; record each element's
domain the first time the element is seen. -/
def buildStep (st : List (String × AData) × List (String × String))
    (rel : RelEntry) : List (String × AData) × List (String × String) :=
  let aName := rel.targetName
  let bName := rel.sourceName
  let schnittstelle := if rel.schnittstelle = "" then "N/A" else rel.schnittstelle
  let aE :=
    match alookup aName st.1 with
    | none => st.1 ++ [(aName, ⟨rel.targetDomain, [(schnittstelle, [bName])]⟩)]
    | some aData =>
        match alookup schnittstelle aData.sm with
        | none =>
            aupdate aName ⟨aData.domain, aData.sm ++ [(schnittstelle, [bName])]⟩ st.1
        | some tset =>
            aupdate aName ⟨aData.domain, aupdate schnittstelle (addSet tset bName) aData.sm⟩ st.1
  let bE :=
    match alookup bName st.2 with
    | none => st.2 ++ [(bName, rel.sourceDomain)]
    | some _ => st.2
  (aE, bE)

/-- `buildComatrix` from a list of already extracted relationship entries:
fold the entries into the two maps, then sort both key lists with
`sortElementsByDomain`. -/
def buildComatrixFrom (entries : List RelEntry) : Comatrix :=
  let st := entries.foldl buildStep ([], [])
  { aElements := st.1
    bElementsMap := st.2
    sortedAElements := sortElementsByDomain (aDomOf st.1) (st.1.map Prod.fst)
    sortedBElements := sortElementsByDomain (bDomOf st.2) (st.2.map Prod.fst)
    relationships := entries }

/-- `buildComatrix(currentModel)` of `comatrix.js`: extract the
relationships and build the table. -/
def buildComatrix (g : CGraph) (rels : List TriggerRel) : Comatrix :=
  buildComatrixFrom (extractElements g rels)

/-- The body of the per-current-A-element merge (`comatrix.js` lines
122-153), acting on the result map: for an element present in both
tables, overwrite the domain with the current one when the kept domain is
empty or differs, then union the per-Schnittstelle target sets; copy an
element only present in the current table. -/
def mergeAStep (acc : List (String × AData)) (kv : String × AData) :
    List (String × AData) :=
  match alookup kv.1 acc with
  | none => acc ++ [(kv.1, kv.2)]
  | some existing =>
      let newDomain :=
        if existing.domain = "" ∨ existing.domain ≠ kv.2.domain then kv.2.domain
        else existing.domain
      let newSm := kv.2.sm.foldl
        (fun sm schBSet =>
          match alookup schBSet.1 sm with
          | none => sm ++ [(schBSet.1, schBSet.2)]
          | some ebs => aupdate schBSet.1 (schBSet.2.foldl addSet ebs) sm)
        existing.sm
      aupdate kv.1 ⟨newDomain, newSm⟩ acc

/-- The body of the per-current-B-element merge (`comatrix.js` lines
164-178): keep the baseline domain only when it is non-empty and equal to
the current one. -/
def mergeBStep (acc : List (String × String)) (kv : String × String) :
    List (String × String) :=
  match alookup kv.1 acc with
  | none => acc ++ [(kv.1, kv.2)]
  | some bd => if bd = "" ∨ bd ≠ kv.2 then aupdate kv.1 kv.2 acc else acc

/-- `merge(comatrixBase, comatrixCurrent)` of `comatrix.js`, as the value
it returns: copy the baseline maps, fold in the current maps, re-sort, and
concatenate the relationship lists. -/
def merge (base current : Comatrix) : Comatrix :=
  let aM := current.aElements.foldl mergeAStep base.aElements
  let bM := current.bElementsMap.foldl mergeBStep base.bElementsMap
  { aElements := aM
    bElementsMap := bM
    sortedAElements := sortElementsByDomain (aDomOf aM) (aM.map Prod.fst)
    sortedBElements := sortElementsByDomain (bDomOf bM) (bM.map Prod.fst)
    relationships := base.relationships ++ current.relationships }

/-- The state of the `base` argument after `merge(base, current)` returns.
`merge` copies each baseline A-element with
`new Map(value.schnittstellenMap)`, a shallow copy that shares the target
`Set` objects with `base`; the later
`existingData.schnittstellenMap.get(schnittstelle).add(b)` calls therefore
mutate `base`'s own sets for every (A-element, Schnittstelle) key present
in both tables.  The baseline domains, B-element map, sorted lists and
relationship list are untouched. -/
def mergeBaseAfter (base current : Comatrix) : Comatrix :=
  { base with
    aElements := base.aElements.map (fun kv =>
      match alookup kv.1 current.aElements with
      | none => kv
      | some cad =>
          (kv.1, ⟨kv.2.domain,
            kv.2.sm.map (fun schBSet =>
              match alookup schBSet.1 cad.sm with
              | none => schBSet
              | some cbs => (schBSet.1, cbs.foldl addSet schBSet.2))⟩)) }

/-- Table well-formedness as `buildComatrix` and `merge` establish it: the
maps have pairwise-distinct keys and the sorted key lists are the ones the
sort policy computes from the maps. -/
def wfTable (m : Comatrix) : Prop :=
  keysNodup m.aElements ∧
  (∀ kv ∈ m.aElements, keysNodup kv.2.sm) ∧
  keysNodup m.bElementsMap ∧
  m.sortedAElements = sortElementsByDomain (aDomOf m.aElements) (m.aElements.map Prod.fst) ∧
  m.sortedBElements = sortElementsByDomain (bDomOf m.bElementsMap) (m.bElementsMap.map Prod.fst)

instance (m : Comatrix) : Decidable (wfTable m) := by
  unfold wfTable; infer_instance

/-- The intern/extern derivation of `output2Excel` (`comatrix-bundled.js`
lines 431-452): scan the sorted B-elements; a connection whose two
endpoint domains are both non-empty sets `hasConnectionWithDomain`, any
other connection sets `hasConnectionWithoutDomain`; the row is "extern" as
soon as one connection lacks a domain, "intern" when some connection has
both domains, and "" when the row has no connection.  `bDomainOf` is the
`bElementsMap` read as a function (the scan only looks up keys of the
map). -/
def internExternOf (bDomainOf : String → String) (sortedBElements : List String)
    (aDomain : String) (targetSet : List String) : String :=
  let flags := sortedBElements.foldl
    (fun (fl : Bool × Bool) bName =>
      if bName ∈ targetSet then
        if aDomain ≠ "" ∧ bDomainOf bName ≠ "" then (true, fl.2) else (fl.1, true)
      else fl)
    (false, false)
  if flags.2 then "extern" else if flags.1 then "intern" else ""

/-- A row key (A-element, Schnittstelle) is present in a table — the
membership test behind `baselineRowCombinations` / `currentRowCombinations`
of `output2Excel` (the `"aName|schnittstelle"` key strings are modelled as
pairs; the scripts assume element names contain no "|"). -/
def hasRowKey (m : Comatrix) (aName schnittstelle : String) : Bool :=
  match alookup aName m.aElements with
  | some aData => (alookup schnittstelle aData.sm).isSome
  | none => false

/-- The target set of a row of a table (empty when the row is absent). -/
def rowTargets (m : Comatrix) (aName schnittstelle : String) : List String :=
  match alookup aName m.aElements with
  | some aData => (alookup schnittstelle aData.sm).getD []
  | none => []

/-- The row-level change detection of `output2Excel` (`comatrix-bundled.js`
lines 291-321): a row combination present in both tables joins
`changedRowCombinations` when some B-element is in exactly one of the two
target sets. -/
def rowChanged (base current : Comatrix) (aName schnittstelle : String) : Bool :=
  hasRowKey current aName schnittstelle &&
  hasRowKey base aName schnittstelle &&
    (let baseBSet := rowTargets base aName schnittstelle
     let currentBSet := rowTargets current aName schnittstelle
     baseBSet.any (fun b => !currentBSet.contains b) ||
       currentBSet.any (fun b => !baseBSet.contains b))

/-- The per-cell `connectionStatus` of `output2Excel` (`comatrix-bundled.js`
lines 713-741): "new" when the connection is only in the current table,
"removed" when only in the baseline, and "existing" (rendered without
change highlighting) otherwise. -/
def cellStatus (base current : Comatrix) (aName schnittstelle bName : String) :
    String :=
  let inBaseline := hasRowKey base aName schnittstelle &&
    (rowTargets base aName schnittstelle).contains bName
  let inCurrent := hasRowKey current aName schnittstelle &&
    (rowTargets current aName schnittstelle).contains bName
  if inCurrent && !inBaseline then "new"
  else if inBaseline && !inCurrent then "removed"
  else "existing"

/-- One application-catalog record of `applist.js`. -/
structure AppRec where
  name : String
  typ : String
  domain : String
  fachbereich : String
deriving DecidableEq, Repr

/-- Record construction of `runAppList` (`applist.js` lines 163-171): the
resolver results with the falsy (empty) results replaced by the
"none found" placeholders. -/
def mkApplication (name typ domainResult fachbereichResult : String) : AppRec :=
  { name := name
    typ := typ
    domain := if domainResult = "" then "(keine Domäne)" else domainResult
    fachbereich := if fachbereichResult = "" then "(kein Fachbereich)" else fachbereichResult }

/-- The catalog comparator of `runAppList` (`applist.js` lines 184-220):
"(kein Fachbereich)" after everything else, then Fachbereich, then
"(keine Domäne)" after everything else, then domain, then type, then
name. -/
def appCmp (a b : AppRec) : Ordering :=
  if a.fachbereich = "(kein Fachbereich)" ∧ b.fachbereich ≠ "(kein Fachbereich)" then .gt
  else if a.fachbereich ≠ "(kein Fachbereich)" ∧ b.fachbereich = "(kein Fachbereich)" then .lt
  else if a.fachbereich ≠ b.fachbereich then strCmp a.fachbereich b.fachbereich
  else if a.domain = "(keine Domäne)" ∧ b.domain ≠ "(keine Domäne)" then .gt
  else if a.domain ≠ "(keine Domäne)" ∧ b.domain = "(keine Domäne)" then .lt
  else if a.domain ≠ b.domain then strCmp a.domain b.domain
  else if a.typ ≠ b.typ then strCmp a.typ b.typ
  else strCmp a.name b.name

/-- The catalog order as a relation: `a` may come before `b`. -/
def appLe (a b : AppRec) : Prop := appCmp a b ≠ .gt

instance (a b : AppRec) : Decidable (appLe a b) := by
  unfold appLe; infer_instance

/-- `applications.sort(...)` of `runAppList`, modelled as a deterministic
stable insertion sort by the comparator. -/
def sortApplications (l : List AppRec) : List AppRec :=
  List.insertionSort appLe l

/-- The sort key realised by `appCmp`: lexicographically, the
is-the-Fachbereich-placeholder flag (placeholder entries after all
others), then the Fachbereich, then the is-the-domain-placeholder flag,
then the domain, then the type, then the name. -/
def appKey (a : AppRec) :
    Bool ×ₗ String ×ₗ Bool ×ₗ String ×ₗ String ×ₗ String :=
  toLex (decide (a.fachbereich = "(kein Fachbereich)"),
    toLex (a.fachbereich,
      toLex (decide (a.domain = "(keine Domäne)"),
        toLex (a.domain, toLex (a.typ, a.name)))))

/-- Example: an application element with two domain parents reached by two
different containment branches. -/
def appNode : GNode := ⟨"app1", "OrderApp", "Geschäftsanwendung"⟩

/-- Example: the "Sales" domain grouping. -/
def salesNode : GNode := ⟨"dom1", "Sales", "Domäne"⟩

/-- Example: the "Finance" domain grouping. -/
def financeNode : GNode := ⟨"dom2", "Finance", "Domäne"⟩

/-- Example graph: `appNode` is aggregated both by "Sales" and, in a later
relationship, by "Finance". -/
def twoDomainsGraph : CGraph := ⟨[⟨salesNode, "app1"⟩, ⟨financeNode, "app1"⟩]⟩

/-- Example: an element of the two-element containment cycle. -/
def cycNodeA : GNode := ⟨"ca", "CycElemA", ""⟩

/-- Example: the other element of the containment cycle. -/
def cycNodeB : GNode := ⟨"cb", "CycElemB", ""⟩

/-- Example graph: `cycNodeA` and `cycNodeB` aggregate each other. -/
def cycleGraph : CGraph := ⟨[⟨cycNodeB, "ca"⟩, ⟨cycNodeA, "cb"⟩]⟩

/-- Example: an element with no containment relationships at all. -/
def loneNode : GNode := ⟨"ln", "Standalone", ""⟩

/-- Example graph with no containment edges. -/
def noEdgesGraph : CGraph := ⟨[]⟩

/-- Example: a qualifying trigger relationship that carries no
"Schnittstelle" value at all. -/
def noValuesRel : TriggerRel :=
  ⟨"NST_order", ⟨"src1", "Portal", ""⟩, ⟨"tgt1", "Order System", ""⟩, []⟩

/-- Example baseline table: one row ("A", "S") with target set {"P"}. -/
def smallBase : Comatrix :=
  { aElements := [("A", ⟨"", [("S", ["P"])]⟩)]
    bElementsMap := [("P", "")]
    sortedAElements := ["A"]
    sortedBElements := ["P"]
    relationships := [] }

/-- Example current table: the same row ("A", "S") with target set
{"P", "Q"}. -/
def smallCurrent : Comatrix :=
  { aElements := [("A", ⟨"", [("S", ["P", "Q"])]⟩)]
    bElementsMap := [("P", ""), ("Q", "")]
    sortedAElements := ["A"]
    sortedBElements := ["P", "Q"]
    relationships := [] }

/-- Example of a well-formed two-row connectivity table. -/
def wfExampleTable : Comatrix :=
  { aElements := [("Alpha", ⟨"D1", [("S", ["P", "Q"])]⟩), ("Beta", ⟨"", [("T", ["P"])]⟩)]
    bElementsMap := [("P", "D2"), ("Q", "")]
    sortedAElements := sortElementsByDomain
      (aDomOf [("Alpha", ⟨"D1", [("S", ["P", "Q"])]⟩), ("Beta", ⟨"", [("T", ["P"])]⟩)])
      ["Alpha", "Beta"]
    sortedBElements := sortElementsByDomain (bDomOf [("P", "D2"), ("Q", "")]) ["P", "Q"]
    relationships := [] }

/-- Example baseline for the diff scenario of the spec: row
("Order System", "REST") with target set {"Portal"}. -/
def diffBase : Comatrix :=
  { aElements := [("Order System", ⟨"Dom", [("REST", ["Portal"])]⟩)]
    bElementsMap := [("Portal", "Dom")]
    sortedAElements := ["Order System"]
    sortedBElements := ["Portal"]
    relationships := [] }

/-- Example current table for the diff scenario: the same row with target
set {"Portal", "MobileApp"}. -/
def diffCurrent : Comatrix :=
  { aElements := [("Order System", ⟨"Dom", [("REST", ["Portal", "MobileApp"])]⟩)]
    bElementsMap := [("Portal", "Dom"), ("MobileApp", "Dom")]
    sortedAElements := ["Order System"]
    sortedBElements := ["MobileApp", "Portal"]
    relationships := [] }

/-- Example catalog entry whose Fachbereich resolution found "zulassung". -/
def appWithFach : AppRec := mkApplication "Anw1" "Geschäftsanwendung" "D" "zulassung"

/-- Example catalog entry whose Fachbereich resolution hit a containment
cycle and returned the "cycle" sentinel. -/
def appWithCycle : AppRec := mkApplication "Anw2" "Geschäftsanwendung" "D" "cycle"

/-- Unfolding of `mergeNames` on a cons. -/
theorem mergeNames_cons (acc : List String) (n : String) (f : List String) :
    mergeNames acc (n :: f) = mergeNames (if n ∈ acc then acc else acc ++ [n]) f := rfl

/-- `mergeNames` only ever appends to the accumulated list. -/
theorem mergeNames_subset_left : ∀ (f acc : List String), acc ⊆ mergeNames acc f
  | [], acc => by simp [mergeNames]
  | n :: f, acc => by
    rw [mergeNames_cons]
    refine List.Subset.trans ?_ (mergeNames_subset_left f _)
    by_cases h : n ∈ acc <;> simp [h]

/-- Every merged name ends up in the result of `mergeNames`. -/
theorem mergeNames_subset_right : ∀ (f acc : List String), f ⊆ mergeNames acc f
  | [], _ => by simp
  | n :: f, acc => by
    rw [mergeNames_cons]
    intro x hx
    rcases List.mem_cons.1 hx with rfl | hx
    · refine mergeNames_subset_left f _ ?_
      by_cases h : x ∈ acc <;> simp [h]
    · exact mergeNames_subset_right f _ hx

/-- The `includes` guard of `findAllGroupings` keeps the found list
duplicate-free. -/
theorem mergeNames_nodup : ∀ (f acc : List String), acc.Nodup → (mergeNames acc f).Nodup
  | [], _, h => h
  | n :: f, acc, h => by
    rw [mergeNames_cons]
    refine mergeNames_nodup f _ ?_
    by_cases hn : n ∈ acc
    · simpa [hn]
    · simp [List.nodup_append, hn, h]

/-- The parent loop returns a value as soon as every recursive call does. -/
theorem fagStep_isSome (rec : GNode → Finset String → Option GroupRes)
    (cp : Finset String) (ps : List GNode) :
    ∀ found cyc v, (∀ p ∈ ps, ∀ vi, (rec p vi).isSome = true) →
      (fagStep rec cp ps found cyc v).isSome = true := by
  induction ps with
  | nil => intro found cyc v _; simp [fagStep]
  | cons p ps ih =>
    intro found cyc v h
    simp only [fagStep]
    split
    · exact ih _ _ _ (fun q hq vi => h q (List.mem_cons_of_mem _ hq) vi)
    · rcases ho : rec p v with _ | r
      · exact absurd (h p (List.mem_cons_self _ _) v) (by simp [ho])
      · simp only [ho]
        exact ih _ _ _ (fun q hq vi => h q (List.mem_cons_of_mem _ hq) vi)

/-- The parent loop only grows the visited set. -/
theorem fagStep_visited_mono (rec : GNode → Finset String → Option GroupRes)
    (cp : Finset String) (ps : List GNode)
    (hrec : ∀ p ∈ ps, ∀ vi r', rec p vi = some r' → vi ⊆ r'.visited) :
    ∀ found cyc v r, fagStep rec cp ps found cyc v = some r → v ⊆ r.visited := by
  induction ps with
  | nil => intro found cyc v r h; cases h; exact Finset.Subset.refl _
  | cons p ps ih =>
    intro found cyc v r h
    simp only [fagStep] at h
    split at h
    · exact ih (fun q hq => hrec q (List.mem_cons_of_mem _ hq)) _ _ _ _ h
    · rcases ho : rec p v with _ | r'
      · rw [ho] at h; cases h
      · rw [ho] at h
        exact (hrec p (List.mem_cons_self _ _) v r' ho).trans
          (ih (fun q hq => hrec q (List.mem_cons_of_mem _ hq)) _ _ _ _ h)

/-- Once the cycle flag is set it survives the rest of the parent loop. -/
theorem fagStep_cyc_true (rec : GNode → Finset String → Option GroupRes)
    (cp : Finset String) (ps : List GNode) :
    ∀ found v r, fagStep rec cp ps found true v = some r → r.hasCycle = true := by
  induction ps with
  | nil => intro found v r h; cases h; rfl
  | cons p ps ih =>
    intro found v r h
    simp only [fagStep] at h
    split at h
    · exact ih _ _ _ h
    · rcases ho : rec p v with _ | r'
      · rw [ho] at h; cases h
      · rw [ho] at h
        simpa using ih _ _ _ h

/-- The parent loop only grows the found list. -/
theorem fagStep_found_mono (rec : GNode → Finset String → Option GroupRes)
    (cp : Finset String) (ps : List GNode) :
    ∀ found cyc v r, fagStep rec cp ps found cyc v = some r → found ⊆ r.found := by
  induction ps with
  | nil => intro found cyc v r h; cases h; exact List.Subset.refl _
  | cons p ps ih =>
    intro found cyc v r h
    simp only [fagStep] at h
    split at h
    · exact ih _ _ _ _ h
    · rcases ho : rec p v with _ | r'
      · rw [ho] at h; cases h
      · rw [ho] at h
        exact (mergeNames_subset_left _ _).trans (ih _ _ _ _ h)

/-- The parent loop keeps the found list duplicate-free. -/
theorem fagStep_found_nodup (rec : GNode → Finset String → Option GroupRes)
    (cp : Finset String) (ps : List GNode) :
    ∀ found cyc v r, found.Nodup → fagStep rec cp ps found cyc v = some r →
      r.found.Nodup := by
  induction ps with
  | nil => intro found cyc v r hn h; cases h; exact hn
  | cons p ps ih =>
    intro found cyc v r hn h
    simp only [fagStep] at h
    split at h
    · exact ih _ _ _ _ hn h
    · rcases ho : rec p v with _ | r'
      · rw [ho] at h; cases h
      · rw [ho] at h
        exact ih _ _ _ _ (mergeNames_nodup _ _ hn) h

/-- A parent element's id occurs among the relationship source ids. -/
theorem mem_sourceIds_of_parent {g : CGraph} {e : GNode} {p : GNode}
    (hp : p ∈ parents g e) : p.id ∈ sourceIds g := by
  simp only [parents, parentsOfId, List.mem_map, List.mem_filter] at hp
  obtain ⟨r, ⟨hr, _⟩, hsrc⟩ := hp
  simp only [sourceIds, List.mem_toFinset, List.mem_map]
  exact ⟨r, hr, by rw [hsrc]⟩

/-- A parent relationship is an upward step on ids. -/
theorem upStep_of_parent {g : CGraph} {e : GNode} {p : GNode}
    (hp : p ∈ parents g e) : UpStep g e.id p.id := by
  simp only [parents, parentsOfId, List.mem_map, List.mem_filter] at hp
  obtain ⟨r, ⟨hr, ht⟩, hsrc⟩ := hp
  exact ⟨r, hr, by simp_all⟩

/-- An upward step on ids comes from a parent element. -/
theorem parent_of_upStep {g : CGraph} {e : GNode} {b : String}
    (h : UpStep g e.id b) : ∃ p ∈ parents g e, p.id = b := by
  obtain ⟨r, hr, ht, hs⟩ := h
  refine ⟨r.source, ?_, hs⟩
  simp only [parents, parentsOfId, List.mem_map, List.mem_filter]
  exact ⟨r, ⟨hr, by simp [ht]⟩, rfl⟩

/-- Termination of `findAllGroupings` on every finite graph, cyclic or
not: the recursion never exhausts its fuel once the fuel exceeds the
number of ids that can enter the current path. -/
theorem fag_fuel_sufficient (g : CGraph) (spec : String) :
    ∀ n e v cp, ((insert e.id (sourceIds g)) \ cp).card < n →
      (fag g spec n e v cp).isSome = true := by
  intro n
  induction n with
  | zero => intro e v cp h; exact absurd h (Nat.not_lt_zero _)
  | succ n ih =>
    intro e v cp h
    simp only [fag]
    split
    · simp
    case isFalse hnotin =>
      apply fagStep_isSome
      intro p hp vi
      apply ih
      have hpid : p.id ∈ sourceIds g := mem_sourceIds_of_parent hp
      have h1 : insert p.id (sourceIds g) = sourceIds g := Finset.insert_eq_self.mpr hpid
      rw [h1]
      have hsub : sourceIds g \ insert e.id cp ⊆ insert e.id (sourceIds g) \ cp := by
        intro x hx
        simp only [Finset.mem_sdiff, Finset.mem_insert] at hx ⊢
        tauto
      have hss : sourceIds g \ insert e.id cp ⊂ insert e.id (sourceIds g) \ cp := by
        refine (Finset.ssubset_iff_of_subset hsub).2 ⟨e.id, ?_, ?_⟩
        · simp [hnotin]
        · simp
      have := Finset.card_lt_card hss
      omega

/-- The fuel `fuelBound` always suffices: `findAllGroupingsTop` is the
value of the recursion, never the dead default. -/
theorem findAllGroupingsTop_eq (g : CGraph) (e : GNode) (spec : String) :
    fag g spec (fuelBound g e) e ∅ ∅ = some (findAllGroupingsTop g e spec) := by
  have h := fag_fuel_sufficient g spec (fuelBound g e) e ∅ ∅ (by simp [fuelBound])
  rcases ho : fag g spec (fuelBound g e) e ∅ ∅ with _ | r
  · rw [ho] at h; simp at h
  · simp [findAllGroupingsTop, ho]

/-- `findAllGroupings` only grows the visited set, and marks its own
element visited unless it returned early on a cycle. -/
theorem fag_visited_mono (g : CGraph) (spec : String) :
    ∀ n e v cp r, fag g spec n e v cp = some r →
      v ⊆ r.visited ∧ (e.id ∉ cp → e.id ∈ r.visited) := by
  intro n
  induction n with
  | zero => intro e v cp r h; simp [fag] at h
  | succ n ih =>
    intro e v cp r h
    simp only [fag] at h
    split at h
    case isTrue hmem =>
      cases h
      exact ⟨Finset.Subset.refl _, fun hn => absurd hmem hn⟩
    case isFalse hnm =>
      have hmono := fagStep_visited_mono _ _ _
        (fun p _ vi r' hr => (ih p vi _ r' hr).1) _ _ _ _ h
      exact ⟨(Finset.subset_insert _ _).trans hmono,
        fun _ => hmono (Finset.mem_insert_self _ _)⟩

/-- A call on an element already on the current path reports a cycle. -/
theorem fag_cp_cycle (g : CGraph) (spec : String) :
    ∀ n p v cp r, p.id ∈ cp → fag g spec n p v cp = some r →
      r.hasCycle = true := by
  intro n p v cp r hmem h
  cases n with
  | zero => simp [fag] at h
  | succ n =>
    simp only [fag, if_pos hmem] at h
    cases h
    rfl

/-- `findAllGroupings` keeps the found list duplicate-free. -/
theorem fag_found_nodup (g : CGraph) (spec : String) :
    ∀ n e v cp r, fag g spec n e v cp = some r → r.found.Nodup := by
  intro n e v cp r h
  cases n with
  | zero => simp [fag] at h
  | succ n =>
    simp only [fag] at h
    split at h
    · cases h; exact List.nodup_nil
    · refine fagStep_found_nodup _ _ _ _ _ _ _ ?_ h
      split <;> simp

/-- Soundness of the cycle flag through the parent loop: a reported cycle
comes either from the accumulated flag or from one of the recursive
calls. -/
theorem fagStep_sound (g : CGraph)
    (rec : GNode → Finset String → Option GroupRes) (cp : Finset String)
    (ps : List GNode)
    (hrec : ∀ p ∈ ps, ∀ vi r', rec p vi = some r' → r'.hasCycle = true →
      ∃ x, Relation.TransGen (UpStep g) x x) :
    ∀ found cyc v r, (cyc = true → ∃ x, Relation.TransGen (UpStep g) x x) →
      fagStep rec cp ps found cyc v = some r → r.hasCycle = true →
      ∃ x, Relation.TransGen (UpStep g) x x := by
  induction ps with
  | nil =>
    intro found cyc v r hcyc h hr
    cases h
    exact hcyc hr
  | cons p ps ih =>
    intro found cyc v r hcyc h hr
    simp only [fagStep] at h
    split at h
    · exact ih (fun q hq => hrec q (List.mem_cons_of_mem _ hq)) _ _ _ _ hcyc h hr
    · rcases ho : rec p v with _ | r'
      · rw [ho] at h; cases h
      · rw [ho] at h
        refine ih (fun q hq => hrec q (List.mem_cons_of_mem _ hq)) _ _ _ _ ?_ h hr
        intro hor
        rcases Bool.or_eq_true_iff.1 hor with hc | hc
        · exact hcyc hc
        · exact hrec p (List.mem_cons_self _ _) v r' ho hc

/-- Soundness of cycle detection: whenever `findAllGroupings` reports a
cycle, the containment graph really contains a directed cycle. -/
theorem fag_sound (g : CGraph) (spec : String) :
    ∀ n e v cp r, (∀ x ∈ cp, Relation.TransGen (UpStep g) x e.id) →
      fag g spec n e v cp = some r → r.hasCycle = true →
      ∃ x, Relation.TransGen (UpStep g) x x := by
  intro n
  induction n with
  | zero => intro e v cp r _ h; simp [fag] at h
  | succ n ih =>
    intro e v cp r hinv h hcyc
    simp only [fag] at h
    split at h
    case isTrue hmem => exact ⟨e.id, hinv e.id hmem⟩
    case isFalse hnm =>
      refine fagStep_sound g _ _ _ ?_ _ _ _ _ ?_ h hcyc
      · intro p hp vi r' hr hc
        refine ih p vi _ r' ?_ hr hc
        intro x hx
        rcases Finset.mem_insert.1 hx with rfl | hx
        · exact Relation.TransGen.single (upStep_of_parent hp)
        · exact (hinv x hx).tail (upStep_of_parent hp)
      · intro hfalse; cases hfalse

/-- An element none of whose parents can reach a cycle cannot reach a
cycle itself. -/
theorem not_seesCycle_of_parents (g : CGraph) (e : GNode)
    (hp : ∀ p ∈ parents g e, ¬ SeesCycle g p.id) : ¬ SeesCycle g e.id := by
  rintro ⟨c, hrt, htc⟩
  rcases Relation.ReflTransGen.cases_head hrt with heq | ⟨d, hstep, hrt'⟩
  · subst heq
    obtain ⟨b, hstep, hrt2⟩ := Relation.TransGen.head'_iff.1 htc
    obtain ⟨p, hpmem, hpid⟩ := parent_of_upStep hstep
    refine hp p hpmem ⟨e.id, ?_, htc⟩
    rw [hpid]
    exact hrt2
  · obtain ⟨p, hpmem, hpid⟩ := parent_of_upStep hstep
    refine hp p hpmem ⟨c, ?_, htc⟩
    rw [hpid]
    exact hrt'

/-- Completeness of cycle detection through the parent loop: when the loop
finishes without a cycle, the fully-visited-off-path invariant is
preserved and no parent of the loop can reach a cycle. -/
theorem fagStep_complete (g : CGraph)
    (rec : GNode → Finset String → Option GroupRes) (cp : Finset String)
    (ps : List GNode)
    (hrec : ∀ p ∈ ps, ∀ vi r', (∀ x ∈ vi, x ∉ cp → ¬ SeesCycle g x) →
      rec p vi = some r' → r'.hasCycle = false →
      ∀ x ∈ r'.visited, x ∉ cp → ¬ SeesCycle g x)
    (hrecMono : ∀ p ∈ ps, ∀ vi r', rec p vi = some r' →
      vi ⊆ r'.visited ∧ (p.id ∉ cp → p.id ∈ r'.visited))
    (hrecCp : ∀ p ∈ ps, ∀ vi r', p.id ∈ cp → rec p vi = some r' →
      r'.hasCycle = true) :
    ∀ found cyc v r, (∀ x ∈ v, x ∉ cp → ¬ SeesCycle g x) →
      fagStep rec cp ps found cyc v = some r → r.hasCycle = false →
      (∀ x ∈ r.visited, x ∉ cp → ¬ SeesCycle g x) ∧
        (∀ p ∈ ps, ¬ SeesCycle g p.id) := by
  induction ps with
  | nil =>
    intro found cyc v r hJ h _
    cases h
    exact ⟨hJ, by simp⟩
  | cons p ps ih =>
    intro found cyc v r hJ h hcyc
    simp only [fagStep] at h
    split at h
    case isTrue hskip =>
      obtain ⟨hJf, hps⟩ := ih (fun q hq => hrec q (List.mem_cons_of_mem _ hq))
        (fun q hq => hrecMono q (List.mem_cons_of_mem _ hq))
        (fun q hq => hrecCp q (List.mem_cons_of_mem _ hq)) _ _ _ _ hJ h hcyc
      refine ⟨hJf, ?_⟩
      intro q hq
      rcases List.mem_cons.1 hq with rfl | hq
      · exact hJ q.id hskip.1 hskip.2
      · exact hps q hq
    case isFalse hsk =>
      rcases ho : rec p v with _ | r'
      · rw [ho] at h; cases h
      · rw [ho] at h
        change fagStep rec cp ps (mergeNames found r'.found)
          (cyc || r'.hasCycle) r'.visited = some r at h
        have hr'cyc : r'.hasCycle = false := by
          by_contra hc
          simp only [Bool.not_eq_false] at hc
          rw [hc, Bool.or_true] at h
          rw [fagStep_cyc_true _ _ _ _ _ _ h] at hcyc
          cases hcyc
        have hpcp : p.id ∉ cp := by
          intro hc
          rw [hrecCp p (List.mem_cons_self _ _) v r' hc ho] at hr'cyc
          cases hr'cyc
        have hJ' : ∀ x ∈ r'.visited, x ∉ cp → ¬ SeesCycle g x :=
          hrec p (List.mem_cons_self _ _) v r' hJ ho hr'cyc
        obtain ⟨hJf, hps⟩ := ih (fun q hq => hrec q (List.mem_cons_of_mem _ hq))
          (fun q hq => hrecMono q (List.mem_cons_of_mem _ hq))
          (fun q hq => hrecCp q (List.mem_cons_of_mem _ hq)) _ _ _ _ hJ' h hcyc
        refine ⟨hJf, ?_⟩
        intro q hq
        rcases List.mem_cons.1 hq with rfl | hq
        · have h1 : q.id ∈ r'.visited :=
            (hrecMono q (List.mem_cons_self _ _) v r' ho).2 hpcp
          have h2 : r'.visited ⊆ r.visited :=
            fagStep_visited_mono _ _ _
              (fun q' hq' vi r'' hr'' =>
                (hrecMono q' (List.mem_cons_of_mem _ hq') vi r'' hr'').1)
              _ _ _ _ h
          exact hJf q.id (h2 h1) hpcp
        · exact hps q hq

/-- Completeness of cycle detection: when `findAllGroupings` reports no
cycle, no element it marked visited (off the current path) can reach a
containment cycle. -/
theorem fag_complete (g : CGraph) (spec : String) :
    ∀ n e v cp r, (∀ x ∈ v, x ∉ cp → ¬ SeesCycle g x) →
      fag g spec n e v cp = some r → r.hasCycle = false →
      ∀ x ∈ r.visited, x ∉ cp → ¬ SeesCycle g x := by
  intro n
  induction n with
  | zero => intro e v cp r _ h; simp [fag] at h
  | succ n ih =>
    intro e v cp r hJ h hcyc
    simp only [fag] at h
    split at h
    case isTrue hm => cases h; cases hcyc
    case isFalse hnm =>
      have hJ1 : ∀ x ∈ insert e.id v, x ∉ insert e.id cp → ¬ SeesCycle g x := by
        intro x hx hxcp
        rcases Finset.mem_insert.1 hx with rfl | hx
        · exact absurd (Finset.mem_insert_self _ _) hxcp
        · exact hJ x hx (fun hc => hxcp (Finset.mem_insert_of_mem hc))
      obtain ⟨hJf, hpar⟩ := fagStep_complete g _ _ _
        (fun p _ vi r' hpre hr hc => ih p vi _ r' hpre hr hc)
        (fun p _ vi r' hr => fag_visited_mono g spec n p vi _ r' hr)
        (fun p _ vi r' hpc hr => fag_cp_cycle g spec n p vi _ r' hpc hr)
        _ _ _ _ hJ1 h hcyc
      intro x hxv hxcp
      by_cases hxe : x = e.id
      · subst hxe
        exact not_seesCycle_of_parents g e hpar
      · exact hJf x hxv (by simp [Finset.mem_insert, hxe, hxcp])

/-- Closure of the visited set through the parent loop: when the loop
finishes without a cycle, the visited set remains parent-closed and
contains all parents of the loop. -/
theorem fagStep_closed (g : CGraph)
    (rec : GNode → Finset String → Option GroupRes) (cp : Finset String)
    (ps : List GNode)
    (hrec : ∀ p ∈ ps, ∀ vi r', ParentClosed g vi cp → rec p vi = some r' →
      r'.hasCycle = false → ParentClosed g r'.visited cp)
    (hrecMono : ∀ p ∈ ps, ∀ vi r', rec p vi = some r' →
      vi ⊆ r'.visited ∧ (p.id ∉ cp → p.id ∈ r'.visited))
    (hrecCp : ∀ p ∈ ps, ∀ vi r', p.id ∈ cp → rec p vi = some r' →
      r'.hasCycle = true) :
    ∀ found cyc v r, ParentClosed g v cp →
      fagStep rec cp ps found cyc v = some r → r.hasCycle = false →
      ParentClosed g r.visited cp ∧ (∀ p ∈ ps, p.id ∈ r.visited) := by
  induction ps with
  | nil =>
    intro found cyc v r hJ h _
    cases h
    exact ⟨hJ, by simp⟩
  | cons p ps ih =>
    intro found cyc v r hJ h hcyc
    simp only [fagStep] at h
    split at h
    case isTrue hskip =>
      obtain ⟨hJf, hps⟩ := ih (fun q hq => hrec q (List.mem_cons_of_mem _ hq))
        (fun q hq => hrecMono q (List.mem_cons_of_mem _ hq))
        (fun q hq => hrecCp q (List.mem_cons_of_mem _ hq)) _ _ _ _ hJ h hcyc
      have hmono : v ⊆ r.visited :=
        fagStep_visited_mono _ _ _
          (fun q' hq' vi r'' hr'' =>
            (hrecMono q' (List.mem_cons_of_mem _ hq') vi r'' hr'').1)
          _ _ _ _ h
      refine ⟨hJf, ?_⟩
      intro q hq
      rcases List.mem_cons.1 hq with rfl | hq
      · exact hmono hskip.1
      · exact hps q hq
    case isFalse hsk =>
      rcases ho : rec p v with _ | r'
      · rw [ho] at h; cases h
      · rw [ho] at h
        change fagStep rec cp ps (mergeNames found r'.found)
          (cyc || r'.hasCycle) r'.visited = some r at h
        have hr'cyc : r'.hasCycle = false := by
          by_contra hc
          simp only [Bool.not_eq_false] at hc
          rw [hc, Bool.or_true] at h
          rw [fagStep_cyc_true _ _ _ _ _ _ h] at hcyc
          cases hcyc
        have hpcp : p.id ∉ cp := by
          intro hc
          rw [hrecCp p (List.mem_cons_self _ _) v r' hc ho] at hr'cyc
          cases hr'cyc
        have hJ' : ParentClosed g r'.visited cp :=
          hrec p (List.mem_cons_self _ _) v r' hJ ho hr'cyc
        obtain ⟨hJf, hps⟩ := ih (fun q hq => hrec q (List.mem_cons_of_mem _ hq))
          (fun q hq => hrecMono q (List.mem_cons_of_mem _ hq))
          (fun q hq => hrecCp q (List.mem_cons_of_mem _ hq)) _ _ _ _ hJ' h hcyc
        have hmono : r'.visited ⊆ r.visited :=
          fagStep_visited_mono _ _ _
            (fun q' hq' vi r'' hr'' =>
              (hrecMono q' (List.mem_cons_of_mem _ hq') vi r'' hr'').1)
            _ _ _ _ h
        refine ⟨hJf, ?_⟩
        intro q hq
        rcases List.mem_cons.1 hq with rfl | hq
        · exact hmono ((hrecMono q (List.mem_cons_self _ _) v r' ho).2 hpcp)
        · exact hps q hq

/-- Closure of the visited set: after a cycle-free `findAllGroupings`
call, every visited element off the current path has all its parents
visited. -/
theorem fag_closed (g : CGraph) (spec : String) :
    ∀ n e v cp r, ParentClosed g v cp →
      fag g spec n e v cp = some r → r.hasCycle = false →
      ParentClosed g r.visited cp := by
  intro n
  induction n with
  | zero => intro e v cp r _ h; simp [fag] at h
  | succ n ih =>
    intro e v cp r hJ h hcyc
    simp only [fag] at h
    split at h
    case isTrue hm => cases h; cases hcyc
    case isFalse hnm =>
      have hJ1 : ParentClosed g (insert e.id v) (insert e.id cp) := by
        intro a ha hacp q hq
        rcases Finset.mem_insert.1 ha with rfl | ha
        · exact absurd (Finset.mem_insert_self _ _) hacp
        · exact Finset.mem_insert_of_mem
            (hJ a ha (fun hc => hacp (Finset.mem_insert_of_mem hc)) q hq)
      obtain ⟨hJf, hpar⟩ := fagStep_closed g _ _ _
        (fun p _ vi r' hpre hr hc => ih p vi _ r' hpre hr hc)
        (fun p _ vi r' hr => fag_visited_mono g spec n p vi _ r' hr)
        (fun p _ vi r' hpc hr => fag_cp_cycle g spec n p vi _ r' hpc hr)
        _ _ _ _ hJ1 h hcyc
      intro a ha hacp q hq
      by_cases hae : a = e.id
      · subst hae
        exact hpar q hq
      · exact hJf a ha (by simp [Finset.mem_insert, hae, hacp]) q hq

/-- Name coverage through the parent loop: every qualifying element newly
visited during a cycle-free loop had its name merged into the found
list. -/
theorem fagStep_names (g : CGraph) (spec : String) (U : List GNode)
    (rec : GNode → Finset String → Option GroupRes) (cp : Finset String)
    (ps : List GNode)
    (hrec : ∀ p ∈ ps, ∀ vi r', rec p vi = some r' → r'.hasCycle = false →
      ∀ y ∈ U, y.id ∈ r'.visited → y.id ∉ vi → y.specialization = spec →
        y.name ∈ r'.found) :
    ∀ found cyc v r, fagStep rec cp ps found cyc v = some r →
      r.hasCycle = false →
      ∀ y ∈ U, y.id ∈ r.visited → y.id ∉ v → y.specialization = spec →
        y.name ∈ r.found := by
  induction ps with
  | nil =>
    intro found cyc v r h _ y _ hyv hynv _
    cases h
    exact absurd hyv hynv
  | cons p ps ih =>
    intro found cyc v r h hcyc y hyU hyv hynv hyspec
    simp only [fagStep] at h
    split at h
    case isTrue hskip =>
      exact ih (fun q hq => hrec q (List.mem_cons_of_mem _ hq))
        _ _ _ _ h hcyc y hyU hyv hynv hyspec
    case isFalse hsk =>
      rcases ho : rec p v with _ | r'
      · rw [ho] at h; cases h
      · rw [ho] at h
        change fagStep rec cp ps (mergeNames found r'.found)
          (cyc || r'.hasCycle) r'.visited = some r at h
        have hr'cyc : r'.hasCycle = false := by
          by_contra hc
          simp only [Bool.not_eq_false] at hc
          rw [hc, Bool.or_true] at h
          rw [fagStep_cyc_true _ _ _ _ _ _ h] at hcyc
          cases hcyc
        by_cases hy : y.id ∈ r'.visited
        · have h1 : y.name ∈ r'.found :=
            hrec p (List.mem_cons_self _ _) v r' ho hr'cyc y hyU hy hynv hyspec
          exact fagStep_found_mono _ _ _ _ _ _ _ h
            (mergeNames_subset_right _ _ h1)
        · exact ih (fun q hq => hrec q (List.mem_cons_of_mem _ hq))
            _ _ _ _ h hcyc y hyU hyv hy hyspec

/-- Name coverage: a cycle-free `findAllGroupings` call records the name
of every qualifying element it newly visits, provided element ids are
consistent across the pool `U` of element objects the walk can touch. -/
theorem fag_names (g : CGraph) (spec : String) (U : List GNode)
    (hCons : ∀ y ∈ U, ∀ z ∈ U, y.id = z.id → y = z) :
    ∀ n e v cp r, e ∈ U → (∀ q ∈ g.edges, q.source ∈ U) →
      fag g spec n e v cp = some r → r.hasCycle = false →
      ∀ y ∈ U, y.id ∈ r.visited → y.id ∉ v → y.specialization = spec →
        y.name ∈ r.found := by
  intro n
  induction n with
  | zero => intro e v cp r _ _ h; simp [fag] at h
  | succ n ih =>
    intro e v cp r heU hsrcU h hcyc y hyU hyv hynv hyspec
    simp only [fag] at h
    split at h
    case isTrue hm => cases h; cases hcyc
    case isFalse hnm =>
      by_cases hye : y.id = e.id
      · have hy : y = e := hCons y hyU e heU hye
        subst hy
        have hfound : y.name ∈ (if y.specialization = spec then [y.name] else []) := by
          simp [hyspec]
        exact fagStep_found_mono _ _ _ _ _ _ _ h hfound
      · refine fagStep_names g spec U _ _ _ ?_ _ _ _ _ h hcyc y hyU hyv ?_ hyspec
        · intro p hp vi r' hr hc
          have hpU : p ∈ U := by
            simp only [parents, parentsOfId, List.mem_map, List.mem_filter] at hp
            obtain ⟨q, ⟨hq, _⟩, hsrc⟩ := hp
            rw [← hsrc]
            exact hsrcU q hq
          exact ih p vi _ r' hpU hsrcU hr hc
        · simp [Finset.mem_insert, hye, hynv]

/-- Every element reachable upward from a member of a parent-closed,
path-free visited set is itself visited. -/
theorem reach_mem_of_closed (g : CGraph) (V : Finset String)
    (hcl : ParentClosed g V ∅) :
    ∀ e y, Relation.ReflTransGen (UpStepN g) e y → e.id ∈ V → y.id ∈ V := by
  intro e y h
  induction h with
  | refl => exact id
  | tail _ hstep ih =>
    intro he
    exact hcl _ (ih he) (Finset.not_mem_empty _) _ hstep

/-- Every element reachable upward from `e` belongs to the pool of `e`'s
graph. -/
theorem reach_mem_pool (g : CGraph) (e : GNode) :
    ∀ y, Relation.ReflTransGen (UpStepN g) e y → y ∈ nodePool g e := by
  intro y h
  induction h with
  | refl => exact List.mem_cons_self _ _
  | tail _ hstep _ =>
    rename_i z _ _
    simp only [UpStepN, parents, parentsOfId, List.mem_map, List.mem_filter] at hstep
    obtain ⟨q, ⟨hq, _⟩, hsrc⟩ := hstep
    simp only [nodePool, List.mem_cons, List.mem_map]
    exact Or.inr ⟨q, hq, hsrc⟩

/-- C4: for every finite containment graph — cyclic ones included — the
resolution of `findAllGroupings` terminates (its fuel-indexed embedding
returns a value for every fuel above the bound, so the JavaScript
recursion depth is bounded and no infinite loop occurs), and on graphs
with no containment cycle it returns `hasCycle = false`. -/
theorem c4_resolution_terminates (g : CGraph) (spec : String) :
    (∀ (e : GNode) (v cp : Finset String) (n : Nat),
      ((insert e.id (sourceIds g)) \ cp).card < n →
      (fag g spec n e v cp).isSome = true) ∧
    (∀ e : GNode, (∀ x, ¬ Relation.TransGen (UpStep g) x x) →
      (findAllGroupingsTop g e spec).hasCycle = false) := by
  constructor
  · intro e v cp n h
    exact fag_fuel_sufficient g spec n e v cp h
  · intro e hacyc
    by_contra hc
    simp only [Bool.not_eq_false] at hc
    obtain ⟨x, hx⟩ := fag_sound g spec (fuelBound g e) e ∅ ∅ _
      (by simp) (findAllGroupingsTop_eq g e spec) hc
    exact hacyc x hx

/-- Witness for C4 at concrete inputs: the recursion returns a value on
the two-element cyclic graph, and reports no cycle on the edge-free
graph. -/
theorem c4_witness :
    (fag cycleGraph "Domäne" 3 cycNodeA ∅ ∅).isSome = true ∧
    (findAllGroupingsTop noEdgesGraph loneNode "Domäne").hasCycle = false := by
  constructor
  · exact (c4_resolution_terminates cycleGraph "Domäne").1 cycNodeA ∅ ∅ 3 (by decide)
  · refine (c4_resolution_terminates noEdgesGraph "Domäne").2 loneNode ?_
    intro x hx
    obtain ⟨b, hstep, _⟩ := Relation.TransGen.head'_iff.1 hx
    obtain ⟨r, hr, _⟩ := hstep
    simp [noEdgesGraph] at hr

/-- C5: cycle detection is encoded in the result value: whenever a
containment cycle is reachable upward from the element, the resolution
returns `hasCycle = true`; `findDomain` renders exactly the "cycle"
sentinel whenever the flag is true, regardless of any names found; and
with no names and no cycle it renders the empty-value sentinel. -/
theorem c5_cycle_encoded_in_result (g : CGraph) (e : GNode) :
    (SeesCycle g e.id → (findAllGroupingsTop g e "Domäne").hasCycle = true) ∧
    ((findAllGroupingsTop g e "Domäne").hasCycle = true →
      findDomain g e = "cycle") ∧
    ((findAllGroupingsTop g e "Domäne").hasCycle = false →
      (findAllGroupingsTop g e "Domäne").found = [] → findDomain g e = "") := by
  refine ⟨?_, ?_, ?_⟩
  · intro hsees
    by_contra hc
    simp only [Bool.not_eq_true] at hc
    have hJ := fag_complete g "Domäne" (fuelBound g e) e ∅ ∅ _
      (by simp) (findAllGroupingsTop_eq g e "Domäne") hc
    have hin : e.id ∈ (findAllGroupingsTop g e "Domäne").visited :=
      (fag_visited_mono g "Domäne" (fuelBound g e) e ∅ ∅ _
        (findAllGroupingsTop_eq g e "Domäne")).2 (Finset.not_mem_empty _)
    exact hJ e.id hin (Finset.not_mem_empty _) hsees
  · intro hc
    simp [findDomain, hc]
  · intro hc hf
    simp [findDomain, hc, hf]

/-- Witness for C5 at concrete inputs: the two-element containment cycle
is detected from `cycNodeA` and rendered as "cycle"; the lone element with
no names and no cycle renders the empty sentinel. -/
theorem c5_witness :
    (findAllGroupingsTop cycleGraph cycNodeA "Domäne").hasCycle = true ∧
    findDomain cycleGraph cycNodeA = "cycle" ∧
    findDomain noEdgesGraph loneNode = "" := by
  have h1 : (findAllGroupingsTop cycleGraph cycNodeA "Domäne").hasCycle = true :=
    (c5_cycle_encoded_in_result cycleGraph cycNodeA).1
      ⟨"ca", Relation.ReflTransGen.refl,
        Relation.TransGen.head (b := "cb") (by decide)
          (Relation.TransGen.single (by decide))⟩
  exact ⟨h1, (c5_cycle_encoded_in_result cycleGraph cycNodeA).2.1 h1,
    (c5_cycle_encoded_in_result noEdgesGraph loneNode).2.2 (by decide) (by decide)⟩

/-- C2 counterexample: with "Sales" aggregating the application ahead of
"Finance" in relationship order, `findDomain` joins the two names in
discovery order "Sales, Finance", not in the ascending lexical order
"Finance, Sales" the claim requires. -/
theorem c2_counterexample :
    findDomain twoDomainsGraph appNode = "Sales, Finance" ∧
    findDomain twoDomainsGraph appNode ≠ "Finance, Sales" := by
  constructor
  · rfl
  · decide

/-- C2 amended: on a graph with consistent element ids, a cycle-free
resolution collects the name of every qualifying ancestor exactly once
(each reachable "Domäne" element's name is in the duplicate-free found
list), and `findDomain` joins the names with the fixed separator ", " in
depth-first discovery order — the order of the found list — rather than in
ascending lexical order. -/
theorem c2_names_once_discovery_order (g : CGraph) (e : GNode)
    (hCons : ConsistentIds g e) :
    (findAllGroupingsTop g e "Domäne").found.Nodup ∧
    ((findAllGroupingsTop g e "Domäne").hasCycle = false →
      ∀ y, Relation.ReflTransGen (UpStepN g) e y → y.specialization = "Domäne" →
        y.name ∈ (findAllGroupingsTop g e "Domäne").found) ∧
    ((findAllGroupingsTop g e "Domäne").hasCycle = false →
      (findAllGroupingsTop g e "Domäne").found ≠ [] →
      findDomain g e =
        String.intercalate ", " (findAllGroupingsTop g e "Domäne").found) := by
  refine ⟨?_, ?_, ?_⟩
  · exact fag_found_nodup g "Domäne" (fuelBound g e) e ∅ ∅ _
      (findAllGroupingsTop_eq g e "Domäne")
  · intro hcyc y hreach hspec
    have hcl : ParentClosed g (findAllGroupingsTop g e "Domäne").visited ∅ :=
      fag_closed g "Domäne" (fuelBound g e) e ∅ ∅ _
        (fun a ha => absurd ha (Finset.not_mem_empty a))
        (findAllGroupingsTop_eq g e "Domäne") hcyc
    have hein : e.id ∈ (findAllGroupingsTop g e "Domäne").visited :=
      (fag_visited_mono g "Domäne" (fuelBound g e) e ∅ ∅ _
        (findAllGroupingsTop_eq g e "Domäne")).2 (Finset.not_mem_empty _)
    have hyv : y.id ∈ (findAllGroupingsTop g e "Domäne").visited :=
      reach_mem_of_closed g _ hcl e y hreach hein
    have hyU : y ∈ nodePool g e := reach_mem_pool g e y hreach
    refine fag_names g "Domäne" (nodePool g e) hCons (fuelBound g e) e ∅ ∅ _
      (List.mem_cons_self _ _) ?_
      (findAllGroupingsTop_eq g e "Domäne") hcyc y hyU hyv
      (Finset.not_mem_empty _) hspec
    intro q hq
    simp only [nodePool, List.mem_cons, List.mem_map]
    exact Or.inr ⟨q, hq, rfl⟩
  · intro hcyc hne
    simp [findDomain, hcyc, hne]

/-- Witness for C2 (amended) at the two-domain graph: ids are consistent,
the found list is duplicate-free, it contains the second domain "Finance"
found via the second branch, and the rendered result is the ", "-join of
the found list. -/
theorem c2_witness :
    ConsistentIds twoDomainsGraph appNode ∧
    (findAllGroupingsTop twoDomainsGraph appNode "Domäne").found.Nodup ∧
    "Finance" ∈ (findAllGroupingsTop twoDomainsGraph appNode "Domäne").found ∧
    findDomain twoDomainsGraph appNode =
      String.intercalate ", "
        (findAllGroupingsTop twoDomainsGraph appNode "Domäne").found := by
  have hCons : ConsistentIds twoDomainsGraph appNode := by decide
  have h := c2_names_once_discovery_order twoDomainsGraph appNode hCons
  refine ⟨hCons, h.1, ?_, h.2.2 (by decide) (by decide)⟩
  exact h.2.1 (by decide) financeNode
    (Relation.ReflTransGen.single (by decide)) (by decide)

/-- Folding a function that fixes the accumulator on every list element
leaves the accumulator unchanged. -/
theorem foldl_fixed {α β : Type} (f : β → α → β) (a : β) :
    ∀ l : List α, (∀ x ∈ l, f a x = a) → l.foldl f a = a
  | [], _ => rfl
  | x :: l, h => by
    rw [List.foldl_cons, h x (List.mem_cons_self _ _)]
    exact foldl_fixed f a l (fun y hy => h y (List.mem_cons_of_mem _ hy))

/-- In a key-unique association list, lookup finds the stored value. -/
theorem alookup_nodup {β : Type} {k : String} {v : β} :
    ∀ {l : List (String × β)}, keysNodup l → (k, v) ∈ l → alookup k l = some v := by
  intro l
  induction l with
  | nil => intro _ h; cases h
  | cons kv tl ih =>
    intro hnd hmem
    have hnd' : kv.1 ∉ tl.map Prod.fst ∧ keysNodup tl := by
      simpa [keysNodup] using hnd
    simp only [alookup]
    by_cases hk : kv.1 = k
    · rcases List.mem_cons.1 hmem with heq | hmem
      · rw [← heq]
        simp [← heq] at hk ⊢
      · exfalso
        exact hnd'.1 (hk ▸ List.mem_map.2 ⟨(k, v), hmem, rfl⟩)
    · rw [if_neg hk]
      rcases List.mem_cons.1 hmem with heq | hmem
      · exact absurd (by rw [← heq]) hk
      · exact ih hnd'.2 hmem

/-- Updating a key that is absent is a no-op. -/
theorem aupdate_of_not_mem {β : Type} {k : String} {v : β} :
    ∀ {l : List (String × β)}, k ∉ l.map Prod.fst → aupdate k v l = l := by
  intro l
  induction l with
  | nil => intro _; rfl
  | cons kv tl ih =>
    intro h
    simp only [List.map_cons, List.mem_cons, not_or] at h
    simp only [aupdate, List.map_cons]
    rw [if_neg (fun heq => h.1 heq.symm)]
    have := ih (by simpa [aupdate] using h.2)
    simp only [aupdate] at this
    rw [this]

/-- Updating a key of a key-unique association list with the value it
already stores is a no-op. -/
theorem aupdate_self {β : Type} {k : String} {v : β} :
    ∀ {l : List (String × β)}, keysNodup l → (k, v) ∈ l → aupdate k v l = l := by
  intro l
  induction l with
  | nil => intro _ h; cases h
  | cons kv tl ih =>
    intro hnd hmem
    have hnd' : kv.1 ∉ tl.map Prod.fst ∧ keysNodup tl := by
      simpa [keysNodup] using hnd
    simp only [aupdate, List.map_cons]
    rcases List.mem_cons.1 hmem with heq | hmem
    · have hk1 : k = kv.1 := by rw [← heq]
      have htl : aupdate k v tl = tl :=
        aupdate_of_not_mem (by rw [hk1]; exact hnd'.1)
      simp only [aupdate] at htl
      rw [← heq, ite_self, htl]
    · have hk : kv.1 ≠ k := by
        intro heq
        exact hnd'.1 (heq ▸ List.mem_map.2 ⟨(k, v), hmem, rfl⟩)
      rw [if_neg hk]
      have htl := ih hnd'.2 hmem
      simp only [aupdate] at htl
      rw [htl]

/-- Adding members of a set back into it changes nothing. -/
theorem foldl_addSet_absorb :
    ∀ (m l : List String), (∀ b ∈ m, b ∈ l) → m.foldl addSet l = l
  | [], _, _ => rfl
  | b :: m, l, h => by
    rw [List.foldl_cons]
    have hb : addSet l b = l := by simp [addSet, h b (List.mem_cons_self _ _)]
    rw [hb]
    exact foldl_addSet_absorb m l (fun x hx => h x (List.mem_cons_of_mem _ hx))

/-- Merging an A-element entry of a well-formed table into the table it
came from is a no-op. -/
theorem mergeAStep_self {m : List (String × AData)} {kv : String × AData}
    (hnd : keysNodup m) (hmem : kv ∈ m) (hsm : keysNodup kv.2.sm) :
    mergeAStep m kv = m := by
  have hlk : alookup kv.1 m = some kv.2 := alookup_nodup hnd hmem
  simp only [mergeAStep, hlk]
  have hsmEq : kv.2.sm.foldl
      (fun sm schBSet =>
        match alookup schBSet.1 sm with
        | none => sm ++ [(schBSet.1, schBSet.2)]
        | some ebs => aupdate schBSet.1 (schBSet.2.foldl addSet ebs) sm)
      kv.2.sm = kv.2.sm := by
    apply foldl_fixed
    intro sb hsb
    have hl : alookup sb.1 kv.2.sm = some sb.2 := alookup_nodup hsm hsb
    simp only [hl]
    rw [foldl_addSet_absorb _ _ (fun x hx => hx)]
    exact aupdate_self hsm hsb
  rw [hsmEq, ite_self]
  exact aupdate_self hnd hmem

/-- Merging a B-element entry of a well-formed map into the map it came
from is a no-op. -/
theorem mergeBStep_self {m : List (String × String)} {kv : String × String}
    (hnd : keysNodup m) (hmem : kv ∈ m) : mergeBStep m kv = m := by
  have hlk : alookup kv.1 m = some kv.2 := alookup_nodup hnd hmem
  simp only [mergeBStep, hlk]
  by_cases hd : kv.2 = ""
  · rw [if_pos (Or.inl hd)]
    exact aupdate_self hnd hmem
  · rw [if_neg (by simp [hd])]

/-- C7: merging a well-formed connectivity table with itself is
idempotent: the A-element map (domains and per-Schnittstelle target sets
included), the B-element domain map and both recomputed sort orders are
unchanged. -/
theorem c7_merge_self_idempotent (A : Comatrix) (hwf : wfTable A) :
    (merge A A).aElements = A.aElements ∧
    (merge A A).bElementsMap = A.bElementsMap ∧
    (merge A A).sortedAElements = A.sortedAElements ∧
    (merge A A).sortedBElements = A.sortedBElements := by
  obtain ⟨hA, hsm, hB, hsa, hsb⟩ := hwf
  have haM : A.aElements.foldl mergeAStep A.aElements = A.aElements :=
    foldl_fixed _ _ _ (fun kv hkv => mergeAStep_self hA hkv (hsm kv hkv))
  have hbM : A.bElementsMap.foldl mergeBStep A.bElementsMap = A.bElementsMap :=
    foldl_fixed _ _ _ (fun kv hkv => mergeBStep_self hB hkv)
  refine ⟨?_, ?_, ?_, ?_⟩ <;> simp only [merge]
  · exact haM
  · exact hbM
  · rw [haM, ← hsa]
  · rw [hbM, ← hsb]

/-- Witness for C7 at a concrete well-formed two-row table. -/
theorem c7_witness :
    wfTable wfExampleTable ∧
    (merge wfExampleTable wfExampleTable).aElements = wfExampleTable.aElements ∧
    (merge wfExampleTable wfExampleTable).bElementsMap = wfExampleTable.bElementsMap ∧
    (merge wfExampleTable wfExampleTable).sortedAElements = wfExampleTable.sortedAElements ∧
    (merge wfExampleTable wfExampleTable).sortedBElements = wfExampleTable.sortedBElements := by
  have hwf : wfTable wfExampleTable := by decide
  obtain ⟨h1, h2, h3, h4⟩ := c7_merge_self_idempotent wfExampleTable hwf
  exact ⟨hwf, h1, h2, h3, h4⟩

/-- C3: `merge` mutates its `base` argument.  The shallow `new Map(...)`
copy in `merge` shares the target `Set` objects with `base`, so merging
target sets for a row key present in both tables writes through to
`base`: after `merge(smallBase, smallCurrent)` the base row ("A", "S")
holds ["P", "Q"] instead of its original ["P"]. -/
theorem c3_merge_mutates_base :
    rowTargets smallBase "A" "S" = ["P"] ∧
    rowTargets (mergeBaseAfter smallBase smallCurrent) "A" "S" = ["P", "Q"] ∧
    mergeBaseAfter smallBase smallCurrent ≠ smallBase := by
  refine ⟨rfl, rfl, ?_⟩
  decide

/-- C6 counterexample: a trigger relationship that matches the "NST_"
prefix but has zero "Schnittstelle" values produces zero entries and zero
rows, not the one "N/A" row the claim requires. -/
theorem c6_counterexample :
    startsWithNST noValuesRel.name = true ∧
    noValuesRel.schnittstellen = [] ∧
    extractElements noEdgesGraph [noValuesRel] = [] ∧
    (buildComatrix noEdgesGraph [noValuesRel]).aElements = [] := by
  exact ⟨by decide, rfl, by decide, by decide⟩

/-- C6 amended: a prefix-matching trigger relationship contributes exactly
one entry per "Schnittstelle" value — in particular zero entries, and
hence zero rows, when the value list is empty; the "N/A" substitution
happens later, in `buildComatrix`, for an entry whose single value is the
empty string (see the C10 theorem). -/
theorem c6_one_entry_per_value (g : CGraph) (r : TriggerRel) :
    (extractElements g [r]).length =
      if startsWithNST r.name then r.schnittstellen.length else 0 := by
  by_cases h : startsWithNST r.name = true <;>
    simp [extractElements, h]

/-- Two pointwise-equal fold functions fold equally. -/
theorem foldl_ext {α β : Type} (f g : β → α → β) (h : ∀ st x, f st x = g st x) :
    ∀ (l : List α) (a : β), l.foldl f a = l.foldl g a
  | [], _ => rfl
  | x :: l, a => by
    rw [List.foldl_cons, List.foldl_cons, h]
    exact foldl_ext f g h l _

/-- C10: an empty-string "Schnittstelle" value is keyed as the literal
"N/A" by `buildComatrix`, so replacing every empty interface value by
"N/A" in the extracted entries leaves the built table — A-element map,
B-element map and both sort orders — unchanged. -/
theorem c10_empty_interface_is_na (entries : List RelEntry) :
    (buildComatrixFrom (entries.map (fun r =>
        { r with schnittstelle :=
            if r.schnittstelle = "" then "N/A" else r.schnittstelle }))).aElements =
      (buildComatrixFrom entries).aElements ∧
    (buildComatrixFrom (entries.map (fun r =>
        { r with schnittstelle :=
            if r.schnittstelle = "" then "N/A" else r.schnittstelle }))).bElementsMap =
      (buildComatrixFrom entries).bElementsMap ∧
    (buildComatrixFrom (entries.map (fun r =>
        { r with schnittstelle :=
            if r.schnittstelle = "" then "N/A" else r.schnittstelle }))).sortedAElements =
      (buildComatrixFrom entries).sortedAElements ∧
    (buildComatrixFrom (entries.map (fun r =>
        { r with schnittstelle :=
            if r.schnittstelle = "" then "N/A" else r.schnittstelle }))).sortedBElements =
      (buildComatrixFrom entries).sortedBElements := by
  have hstep : ∀ (st : List (String × AData) × List (String × String)) (r : RelEntry),
      buildStep st { r with schnittstelle :=
        if r.schnittstelle = "" then "N/A" else r.schnittstelle } = buildStep st r := by
    intro st r
    by_cases h : r.schnittstelle = "" <;> simp [buildStep, h]
  have hfold : (entries.map (fun r =>
        { r with schnittstelle :=
          if r.schnittstelle = "" then "N/A" else r.schnittstelle })).foldl buildStep
        ([], []) = entries.foldl buildStep ([], []) := by
    rw [List.foldl_map]
    exact foldl_ext _ _ (fun st r => hstep st r) entries ([], [])
  refine ⟨?_, ?_, ?_, ?_⟩ <;> simp only [buildComatrixFrom] <;> rw [hfold]

/-- C1 counterexample: the A-element has the non-empty domain "DomX" and
its single connected B-element has the different non-empty domain "DomY";
the code classifies the row "intern" (it never compares the two domains
for equality), where the claim requires "extern". -/
theorem c1_counterexample :
    internExternOf (fun _ => "DomY") ["B1"] "DomX" ["B1"] = "intern" ∧
    ("DomX" : String) ≠ "DomY" ∧ ("DomY" : String) ≠ "" := by
  exact ⟨rfl, by decide, by decide⟩

/-- C1 amended: a row is "extern" when some connected B-element (among the
scanned sorted B-elements) has an empty domain or the A-element's domain
is empty; otherwise "intern" when the row has at least one connection
(all connections then have both domains non-empty — equality of the two
domains is not required); and "" when the row has no connection. -/
theorem c1_intern_extern_characterization (f : String → String)
    (sortedB : List String) (aDomain : String) (targetSet : List String) :
    internExternOf f sortedB aDomain targetSet =
      if ∃ b ∈ sortedB, b ∈ targetSet ∧ (aDomain = "" ∨ f b = "") then "extern"
      else if ∃ b ∈ sortedB, b ∈ targetSet then "intern"
      else "" := by
  have key : ∀ (l : List String) (fl : Bool × Bool),
      (l.foldl (fun (fl : Bool × Bool) bName =>
        if bName ∈ targetSet then
          if aDomain ≠ "" ∧ f bName ≠ "" then (true, fl.2) else (fl.1, true)
        else fl) fl) =
      ((fl.1 || decide (∃ b ∈ l, b ∈ targetSet ∧ aDomain ≠ "" ∧ f b ≠ "")),
       (fl.2 || decide (∃ b ∈ l, b ∈ targetSet ∧ (aDomain = "" ∨ f b = "")))) := by
    intro l
    induction l with
    | nil => intro fl; simp
    | cons b l ih =>
      intro fl
      rw [List.foldl_cons]
      by_cases hb : b ∈ targetSet
      · by_cases hd : aDomain ≠ "" ∧ f b ≠ ""
        · rw [if_pos hb, if_pos hd, ih]
          have h2 : ¬ (aDomain = "" ∨ f b = "") := by
            push_neg
            exact hd
          simp [hb, hd, h2, List.exists_mem_cons_iff]
        · rw [if_pos hb, if_neg hd, ih]
          have h2 : aDomain = "" ∨ f b = "" := by
            by_contra hc
            push_neg at hc
            exact hd hc
          simp [hb, hd, h2, List.exists_mem_cons_iff, Bool.or_left_comm,
            Bool.or_assoc, Bool.or_comm]
      · rw [if_neg hb, ih]
        simp [hb, List.exists_mem_cons_iff]
  unfold internExternOf
  rw [key]
  by_cases hx : ∃ b ∈ sortedB, b ∈ targetSet ∧ (aDomain = "" ∨ f b = "")
  · simp [hx]
  · by_cases hi : ∃ b ∈ sortedB, b ∈ targetSet
    · have hall : ∃ b ∈ sortedB, b ∈ targetSet ∧ aDomain ≠ "" ∧ f b ≠ "" := by
        obtain ⟨b, hbl, hbt⟩ := hi
        push_neg at hx
        exact ⟨b, hbl, hbt, hx b hbl hbt⟩
      simp [hx, hi, hall]
    · have hall : ¬ ∃ b ∈ sortedB, b ∈ targetSet ∧ aDomain ≠ "" ∧ f b ≠ "" := by
        intro ⟨b, hbl, hbt, _⟩
        exact hi ⟨b, hbl, hbt⟩
      simp [hx, hi, hall]

/-- C8: a row key present in both tables is marked changed exactly when
some B-element belongs to exactly one of the two target sets; in the
spec's scenario — base targets {"Portal"}, current targets
{"Portal", "MobileApp"} on key ("Order System", "REST") — the row is
changed, the "MobileApp" cell is new, and the "Portal" cell keeps the
unchanged "existing" status. -/
theorem c8_row_change_detection :
    (∀ (base current : Comatrix) (aName schnittstelle : String),
      hasRowKey base aName schnittstelle = true →
      hasRowKey current aName schnittstelle = true →
      (rowChanged base current aName schnittstelle = true ↔
        ∃ b, (b ∈ rowTargets base aName schnittstelle ∧
                b ∉ rowTargets current aName schnittstelle) ∨
             (b ∈ rowTargets current aName schnittstelle ∧
                b ∉ rowTargets base aName schnittstelle))) ∧
    rowChanged diffBase diffCurrent "Order System" "REST" = true ∧
    cellStatus diffBase diffCurrent "Order System" "REST" "MobileApp" = "new" ∧
    cellStatus diffBase diffCurrent "Order System" "REST" "Portal" = "existing" := by
  refine ⟨?_, by decide, by decide, by decide⟩
  intro base current aName schnittstelle hb hc
  simp only [rowChanged, hb, hc, Bool.true_and, Bool.or_eq_true,
    List.any_eq_true, Bool.not_eq_true']
  constructor
  · rintro (⟨b, hbm, hbc⟩ | ⟨b, hbm, hbc⟩)
    · exact ⟨b, Or.inl ⟨hbm, by simpa using hbc⟩⟩
    · exact ⟨b, Or.inr ⟨hbm, by simpa using hbc⟩⟩
  · rintro ⟨b, ⟨hbm, hbc⟩ | ⟨hbm, hbc⟩⟩
    · exact Or.inl ⟨b, hbm, by simpa using hbc⟩
    · exact Or.inr ⟨b, hbm, by simpa using hbc⟩

/-- Witness for C8: the general row rule applied to the concrete
base/current scenario tables, with both key-presence hypotheses
discharged there. -/
theorem c8_witness :
    hasRowKey diffBase "Order System" "REST" = true ∧
    hasRowKey diffCurrent "Order System" "REST" = true ∧
    (rowChanged diffBase diffCurrent "Order System" "REST" = true ↔
      ∃ b, (b ∈ rowTargets diffBase "Order System" "REST" ∧
              b ∉ rowTargets diffCurrent "Order System" "REST") ∨
           (b ∈ rowTargets diffCurrent "Order System" "REST" ∧
              b ∉ rowTargets diffBase "Order System" "REST")) := by
  exact ⟨by decide, by decide,
    c8_row_change_detection.1 diffBase diffCurrent "Order System" "REST"
      (by decide) (by decide)⟩


theorem charCmp_eq_iff {a b : Char} : charCmp a b = .eq ↔ a = b := by
  unfold charCmp
  split_ifs with h1 h2
  · constructor
    · intro h; cases h
    · intro h; exact absurd (h ▸ h1) (lt_irrefl b)
  · constructor
    · intro h; cases h
    · intro h; exact absurd (h ▸ h2) (lt_irrefl b)
  · simp [le_antisymm (le_of_not_lt h2) (le_of_not_lt h1)]

theorem charCmp_lt_iff {a b : Char} : charCmp a b = .lt ↔ a < b := by
  unfold charCmp
  split_ifs with h1 h2
  · simp [h1]
  · simp [lt_asymm h2]
  · simp [h1]

theorem charCmp_gt_iff {a b : Char} : charCmp a b = .gt ↔ b < a := by
  unfold charCmp
  split_ifs with h1 h2
  · simp [lt_asymm h1]
  · simp [h2]
  · simp [h2]

theorem strCmpL_lt_iff : ∀ {as bs : List Char},
    strCmpL as bs = .lt ↔ List.Lex (· < ·) as bs
  | [], [] => iff_of_false (by simp [strCmpL]) (List.Lex.not_nil_right _ _)
  | [], _ :: _ => iff_of_true rfl List.Lex.nil
  | _ :: _, [] => iff_of_false (by simp [strCmpL]) (List.Lex.not_nil_right _ _)
  | a :: as, b :: bs => by
    simp only [strCmpL]
    cases h : charCmp a b with
    | lt =>
      exact iff_of_true rfl (List.Lex.rel (charCmp_lt_iff.1 h))
    | eq =>
      have hab : a = b := charCmp_eq_iff.1 h
      subst hab
      show strCmpL as bs = .lt ↔ _
      rw [strCmpL_lt_iff]
      constructor
      · exact fun hl => List.Lex.cons hl
      · intro hl
        cases hl with
        | cons h' => exact h'
        | rel h' => exact absurd h' (lt_irrefl _)
    | gt =>
      refine iff_of_false (by simp [Ordering.then]) ?_
      intro hl
      have hba : b < a := charCmp_gt_iff.1 h
      cases hl with
      | cons h' => exact absurd hba (lt_irrefl _)
      | rel h' => exact absurd h' (lt_asymm hba)

theorem strCmpL_gt_iff : ∀ {as bs : List Char},
    strCmpL as bs = .gt ↔ List.Lex (· < ·) bs as
  | [], [] => iff_of_false (by simp [strCmpL]) (List.Lex.not_nil_right _ _)
  | [], _ :: _ => iff_of_false (by simp [strCmpL]) (List.Lex.not_nil_right _ _)
  | _ :: _, [] => iff_of_true rfl List.Lex.nil
  | a :: as, b :: bs => by
    simp only [strCmpL]
    cases h : charCmp a b with
    | gt =>
      exact iff_of_true rfl (List.Lex.rel (charCmp_gt_iff.1 h))
    | eq =>
      have hab : a = b := charCmp_eq_iff.1 h
      subst hab
      show strCmpL as bs = .gt ↔ _
      rw [strCmpL_gt_iff]
      constructor
      · exact fun hl => List.Lex.cons hl
      · intro hl
        cases hl with
        | cons h' => exact h'
        | rel h' => exact absurd h' (lt_irrefl _)
    | lt =>
      refine iff_of_false (by simp [Ordering.then]) ?_
      intro hl
      have hba : a < b := charCmp_lt_iff.1 h
      cases hl with
      | cons h' => exact absurd hba (lt_irrefl _)
      | rel h' => exact absurd h' (lt_asymm hba)

theorem strCmpL_eq_iff : ∀ {as bs : List Char}, strCmpL as bs = .eq ↔ as = bs
  | [], [] => iff_of_true rfl rfl
  | [], b :: bs => iff_of_false (by simp [strCmpL]) (by simp)
  | a :: as, [] => iff_of_false (by simp [strCmpL]) (by simp)
  | a :: as, b :: bs => by
    simp only [strCmpL]
    cases h : charCmp a b with
    | lt =>
      refine iff_of_false (by simp [Ordering.then]) ?_
      intro hl
      rw [List.cons.injEq] at hl
      rw [charCmp_eq_iff.2 hl.1] at h
      cases h
    | eq =>
      have hab : a = b := charCmp_eq_iff.1 h
      subst hab
      show strCmpL as bs = .eq ↔ _
      rw [strCmpL_eq_iff]
      simp
    | gt =>
      refine iff_of_false (by simp [Ordering.then]) ?_
      intro hl
      rw [List.cons.injEq] at hl
      rw [charCmp_eq_iff.2 hl.1] at h
      cases h

theorem strCmp_lt_iff {a b : String} : strCmp a b = .lt ↔ a < b := by
  rw [strCmp, strCmpL_lt_iff, String.lt_iff_toList_lt]
  exact Iff.rfl

theorem strCmp_gt_iff {a b : String} : strCmp a b = .gt ↔ b < a := by
  rw [strCmp, strCmpL_gt_iff, String.lt_iff_toList_lt]
  exact Iff.rfl

theorem strCmp_eq_iff {a b : String} : strCmp a b = .eq ↔ a = b := by
  rw [strCmp, strCmpL_eq_iff]
  constructor
  · intro h
    cases a; cases b
    exact congrArg String.mk h
  · intro h
    rw [h]

theorem appCmp_gt_iff {a b : AppRec} :
    appCmp a b = .gt ↔ appKey b < appKey a := by
  unfold appCmp appKey
  simp only [Prod.Lex.lt_iff, Bool.lt_iff, decide_eq_true_eq,
    decide_eq_false_iff_not, decide_eq_decide]
  split_ifs with h1 h2 h3 h4 h5 h6 h7
  · simp [h1.1, h1.2]
  · simp [h2.1, h2.2]
  · have hPQ : (a.fachbereich = "(kein Fachbereich)" ↔
        b.fachbereich = "(kein Fachbereich)") := by tauto
    rw [strCmp_gt_iff]
    simp [hPQ, Ne.symm h3]
  · have hfeq : a.fachbereich = b.fachbereich := by tauto
    simp [hfeq, h4.1, h4.2]
  · have hfeq : a.fachbereich = b.fachbereich := by tauto
    simp [hfeq, h5.1, h5.2]
  · have hfeq : a.fachbereich = b.fachbereich := by tauto
    have hdPQ : (a.domain = "(keine Domäne)" ↔ b.domain = "(keine Domäne)") := by
      tauto
    rw [strCmp_gt_iff]
    simp [hfeq, hdPQ, Ne.symm h6]
  · have hfeq : a.fachbereich = b.fachbereich := by tauto
    have hdeq : a.domain = b.domain := by tauto
    rw [strCmp_gt_iff]
    simp [hfeq, hdeq, Ne.symm h7]
  · have hfeq : a.fachbereich = b.fachbereich := by tauto
    have hdeq : a.domain = b.domain := by tauto
    have hteq : a.typ = b.typ := by tauto
    rw [strCmp_gt_iff]
    simp [hfeq, hdeq, hteq]

theorem appLe_iff_key {a b : AppRec} : appLe a b ↔ appKey a ≤ appKey b := by
  rw [appLe, ← not_lt]
  exact not_congr appCmp_gt_iff

/-- C9 amended: the application catalog is sorted by the comparator of
`runAppList`, which realises the lexicographic key order "Fachbereich
(with the "(kein Fachbereich)" placeholder strictly after every other
value), then Fachbereich, then domain placeholder last, then domain, then
type, then name ascending"; only the "none found" placeholders are pushed
past everything else — the "cycle" sentinel sorts as an ordinary value —
and every entry with an empty (placeholder) Fachbereich sorts strictly
after every entry with a non-empty one. -/
theorem c9_catalog_sort (l : List AppRec) :
    List.Perm (sortApplications l) l ∧
    (sortApplications l).Sorted appLe ∧
    (∀ a b : AppRec, appLe a b ↔ appKey a ≤ appKey b) ∧
    (∀ a b : AppRec, a.fachbereich ≠ "(kein Fachbereich)" →
      b.fachbereich = "(kein Fachbereich)" → appCmp a b = .lt) ∧
    (sortApplications l).Pairwise (fun a b =>
      a.fachbereich = "(kein Fachbereich)" → b.fachbereich = "(kein Fachbereich)") := by
  haveI htot : IsTotal AppRec appLe := ⟨by
    intro a b
    rw [appLe_iff_key, appLe_iff_key]
    exact le_total _ _⟩
  haveI htr : IsTrans AppRec appLe := ⟨by
    intro a b c hab hbc
    rw [appLe_iff_key] at *
    exact le_trans hab hbc⟩
  have hsorted : (sortApplications l).Sorted appLe :=
    List.sorted_insertionSort appLe l
  refine ⟨List.perm_insertionSort appLe l, hsorted, fun a b => appLe_iff_key, ?_, ?_⟩
  · intro a b ha hb
    unfold appCmp
    rw [if_neg (by tauto), if_pos ⟨ha, hb⟩]
  · refine hsorted.imp ?_
    intro a b hab hph
    by_contra hb
    apply hab
    unfold appCmp
    rw [if_pos ⟨hph, hb⟩]

/-- C9 counterexample: an entry whose Fachbereich resolution returned the
"cycle" sentinel sorts before an entry with the real Fachbereich
"zulassung" — the "cycle" sentinel does not sort after all real values as
the claim requires. -/
theorem c9_counterexample :
    appWithCycle.fachbereich = "cycle" ∧
    appWithFach.fachbereich = "zulassung" ∧
    (sortApplications [appWithFach, appWithCycle]).map AppRec.fachbereich =
      ["cycle", "zulassung"] := by
  exact ⟨rfl, rfl, by decide⟩

/-- Witness for C9 (amended) at a concrete two-entry catalog. -/
theorem c9_witness :
    (sortApplications [appWithFach, appWithCycle]).Sorted appLe ∧
    (appLe appWithFach appWithCycle ↔ appKey appWithFach ≤ appKey appWithCycle) ∧
    appCmp appWithFach (mkApplication "Anw3" "Register" "D" "") = .lt ∧
    (sortApplications [appWithFach, appWithCycle]).Pairwise (fun a b =>
      a.fachbereich = "(kein Fachbereich)" → b.fachbereich = "(kein Fachbereich)") := by
  obtain ⟨_, hs, hiff, hlt, hpw⟩ := c9_catalog_sort [appWithFach, appWithCycle]
  exact ⟨hs, hiff _ _, hlt appWithFach (mkApplication "Anw3" "Register" "D" "")
    (by decide) (by decide), hpw⟩
